import Mathlib

/-!
Verification of the Flask-Chronicles core (src/app/models.py, src/app/search.py,
src/app/main/routes.py, src/app/__init__.py) against its specification.

The relational store is embedded as explicit lists of rows; the SQL queries
emitted by the SQLAlchemy expressions in the source are embedded as list
comprehensions (joins = flatMap/filter, LEFT OUTER JOIN = flatMap with a
null-extending empty case, GROUP BY = key-based deduplication, ORDER BY =
insertion sort on the declared key).  Timestamps are naturals.
-/

namespace FlaskChronicles

/-- A row of the `user` table (src/app/models.py, class User).  Only the
columns the verified queries touch are carried. -/
structure User where
  id : Nat
  username : String
  email : String
  deriving Repr, DecidableEq

/-- A row of the `post` table (src/app/models.py, class Post). -/
structure Post where
  id : Nat
  body : String
  timestamp : Nat
  user_id : Nat
  deriving Repr, DecidableEq

/-- The relational store: `user` rows, `post` rows, and the `followers`
association table of (follower_id, followed_id) pairs (src/app/models.py). -/
structure DB where
  users : List User
  posts : List Post
  followers : List (Nat × Nat)
  deriving Repr, DecidableEq

/-- Descending-timestamp comparison used by `order_by(Post.timestamp.desc())`
in `User.following_posts`. -/
def tsGE (p q : Post) : Prop := q.timestamp ≤ p.timestamp

instance : DecidableRel tsGE := fun p q => inferInstanceAs (Decidable (q.timestamp ≤ p.timestamp))

instance : IsTotal Post tsGE := ⟨fun _ _ => Nat.le_total _ _⟩

instance : IsTrans Post tsGE := ⟨fun _ _ _ h1 h2 => Nat.le_trans h2 h1⟩

/-- GROUP BY on a key: keep the first row of each key group.  `seen` is the
accumulator of keys already emitted. -/
def dedupByKey (key : α → Nat) : List α → List Nat → List α
  | [], _ => []
  | a :: as, seen =>
      if seen.contains (key a) then dedupByKey key as seen
      else a :: dedupByKey key as (key a :: seen)

/-- The inner join `followers JOIN user AS follower ON follower.id =
followers.follower_id`, restricted to edges pointing at author `a`
(the `Author.followers.of_type(Follower)` target of the outer join in
`User.following_posts`). -/
def authorEdges (db : DB) (a : User) : List ((Nat × Nat) × User) :=
  (db.followers.flatMap fun e =>
    (db.users.filter fun f => f.id == e.1).map fun f => (e, f)).filter
    fun ef => ef.1.2 == a.id

/-- One row of the feed query before filtering: a post, its author (inner
join), and the optional (follow edge, follower) pair from the LEFT OUTER
join in `User.following_posts`. -/
structure FeedRow where
  post : Post
  author : User
  follower : Option ((Nat × Nat) × User)
  deriving Repr, DecidableEq

/-- The LEFT OUTER JOIN: an author with no matching (edge, follower) pair
yields a single null-extended row. -/
def rowsFor (db : DB) (p : Post) (a : User) : List FeedRow :=
  match authorEdges db a with
  | [] => [⟨p, a, none⟩]
  | efs => efs.map fun ef => ⟨p, a, some ef⟩

/-- The full FROM/JOIN clause of `User.following_posts`:
`post JOIN user AS author ON post.user_id = author.id LEFT OUTER JOIN
(followers JOIN user AS follower) ON followers.followed_id = author.id`. -/
def outerRows (db : DB) : List FeedRow :=
  db.posts.flatMap fun p =>
    (db.users.filter fun a => p.user_id == a.id).flatMap fun a =>
      rowsFor db p a

/-- The WHERE clause of `User.following_posts`:
`Follower.id == self.id OR Author.id == self.id`. -/
def feedFiltered (selfId : Nat) (db : DB) : List FeedRow :=
  (outerRows db).filter fun r =>
    (match r.follower with
     | some ef => ef.2.id == selfId
     | none => false) || r.author.id == selfId

/-- `User.following_posts` (src/app/models.py): join posts to their author,
LEFT OUTER JOIN the author's followers, keep rows where the follower or the
author is `self`, GROUP BY post, ORDER BY timestamp descending. -/
def following_posts (selfId : Nat) (db : DB) : List Post :=
  List.insertionSort tsGE
    (dedupByKey Post.id ((feedFiltered selfId db).map FeedRow.post) [])

/-! The four-user scenario of src/tests.py, test_follow_posts: users A,B,C,D
with one post each (timestamps t+1, t+4, t+3, t+2) and follow edges
A→B, A→D, B→C, C→D. -/

/-- User A ("sakhi") of the reference test. -/
def uA : User := ⟨1, "sakhi", "sakhi@example.com"⟩

/-- User B ("zethe") of the reference test. -/
def uB : User := ⟨2, "zethe", "zethe@example.com"⟩

/-- User C ("zothi") of the reference test. -/
def uC : User := ⟨3, "zothi", "zothi@example.com"⟩

/-- User D ("no") of the reference test. -/
def uD : User := ⟨4, "no", "no@example.com"⟩

/-- Post by A at timestamp t+1. -/
def pA (t : Nat) : Post := ⟨1, "post from sakhi", t + 1, 1⟩

/-- Post by B at timestamp t+4. -/
def pB (t : Nat) : Post := ⟨2, "post from zethe", t + 4, 2⟩

/-- Post by C at timestamp t+3. -/
def pC (t : Nat) : Post := ⟨3, "post from zothi", t + 3, 3⟩

/-- Post by D at timestamp t+2. -/
def pD (t : Nat) : Post := ⟨4, "post from no", t + 2, 4⟩

/-- The database of src/tests.py test_follow_posts: four users, four posts,
follow edges A→B, A→D, B→C, C→D. -/
def scenarioDB (t : Nat) : DB :=
  ⟨[uA, uB, uC, uD], [pA t, pB t, pC t, pD t], [(1, 2), (1, 4), (2, 3), (3, 4)]⟩

/-! Follow mutations (src/app/models.py, User.follow / User.unfollow /
User.is_following).  `is_following` embeds the query
`self.following.select().where(User.id == user.id)`: a row exists iff some
user row has the requested id and the edge (self.id, that id) is present. -/

/-- User.is_following: the scalar of the filtered `following` relationship
query is non-null. -/
def is_following (db : DB) (selfId otherId : Nat) : Bool :=
  db.users.any fun f => f.id == otherId && db.followers.contains (selfId, f.id)

/-- User.follow: insert the association row unless `is_following` already
holds. -/
def follow (db : DB) (selfId otherId : Nat) : DB :=
  if is_following db selfId otherId then db
  else { db with followers := db.followers ++ [(selfId, otherId)] }

/-- User.unfollow: delete the association row, but only when `is_following`
holds; otherwise nothing is touched. -/
def unfollow (db : DB) (selfId otherId : Nat) : DB :=
  if is_following db selfId otherId then
    { db with followers := db.followers.filter fun e => e != (selfId, otherId) }
  else db

/-! Pagination (src/app/main/routes.py, index).  The route calls
`db.paginate(current_user.following_posts(), page=page,
per_page=POSTS_PER_PAGE, error_out=False)`.  `paginate` embeds the
Flask-SQLAlchemy collaborator semantics: items are LIMIT/OFFSET of the
query, `pages` is the ceiling of total/per_page, `has_next` is
`page < pages`, and with `error_out` a page below 1 or an empty
non-first page aborts with 404 (modelled as `Except.error`). -/

/-- One page of results as produced by Flask-SQLAlchemy `db.paginate`. -/
structure PageResult where
  items : List Post
  page : Nat
  per_page : Nat
  total : Nat
  deriving Repr, DecidableEq

/-- Total number of pages: `ceil(total / per_page)`, 0 when the total or the
page size is 0 (Flask-SQLAlchemy `Pagination.pages`). -/
def pageCount (total per_page : Nat) : Nat :=
  if total = 0 ∨ per_page = 0 then 0 else (total + per_page - 1) / per_page

/-- Flask-SQLAlchemy `Pagination.has_next`: `page < pages`. -/
def hasNext (pr : PageResult) : Bool :=
  decide (pr.page < pageCount pr.total pr.per_page)

/-- Flask-SQLAlchemy `db.paginate` over a materialized query result. -/
def paginate (l : List Post) (page per_page : Nat) (error_out : Bool) :
    Except Unit PageResult :=
  if error_out && decide (page < 1) then .error ()
  else
    let items := (l.drop ((page - 1) * per_page)).take per_page
    if error_out && items.isEmpty && decide (page ≠ 1) then .error ()
    else .ok ⟨items, page, per_page, l.length⟩

/-- The feed read of the index route (src/app/main/routes.py): paginate
`following_posts` with `POSTS_PER_PAGE = 3` (src/config.py) and
`error_out=False`. -/
def index_page (db : DB) (selfId page : Nat) : Except Unit PageResult :=
  paginate (following_posts selfId db) page 3 false

/-! The search module (src/app/search.py) and its wiring
(src/app/__init__.py).  A Python `AttributeError` from reading a never
assigned attribute is made explicit with `Except`. -/

/-- Errors the embedded Python code can raise. -/
inductive PyError where
  | attributeError
  | typeError
  deriving Repr, DecidableEq

/-- The external Elasticsearch collaborator: an abstract ranking oracle
mapping (index, query, page, per_page) to the ordered hit ids and the
total match count. -/
structure ESClient where
  searchIds : String → String → Nat → Nat → List Nat × Nat

/-- The application configuration relevant to search
(src/config.py, `ELASTICSEARCH_URL`). -/
structure Config where
  elasticsearchUrl : Option String

/-- The Flask application state relevant to search.  `elasticsearchAttr` is
the `app.elasticsearch` attribute slot: `none` means the attribute was
never assigned (reading it raises `AttributeError`), `some none` means it
was assigned the Python value `None`, `some (some c)` a configured
client. -/
structure FlaskApp where
  elasticsearchAttr : Option (Option ESClient)

/-- Reading `current_app.elasticsearch`: raises `AttributeError` when the
attribute was never assigned. -/
def getattrES (app : FlaskApp) : Except PyError (Option ESClient) :=
  match app.elasticsearchAttr with
  | none => .error .attributeError
  | some v => .ok v

/-- create_app (src/app/__init__.py): the application factory configures the
db, login, mail, moment, babel extensions, blueprints and logging, but no
statement in its body ever assigns `app.elasticsearch`, whatever the
configuration says; the attribute slot of the returned app is therefore
unassigned. -/
def create_app (_cfg : Config) : FlaskApp :=
  { elasticsearchAttr := none }

/-- query_index (src/app/search.py): return ([], 0) when
`current_app.elasticsearch` is falsy, otherwise ask the client. -/
def query_index (app : FlaskApp) (index expr : String) (page per_page : Nat) :
    Except PyError (List Nat × Nat) := do
  let es ← getattrES app
  match es with
  | none => return ([], 0)
  | some c => return c.searchIds index expr page per_page

/-! The search-index synchronizer (src/app/models.py, SearchableMixin) over
an explicit document store.  A session object is an identity
(`tablename`, `id`) plus the `__searchable__` field allowlist and the
field accessor `getattr`; `isSearchable` is the
`isinstance(obj, SearchableMixin)` test. -/

/-- An ORM session object as seen by the synchronizer. -/
structure Obj where
  isSearchable : Bool
  tablename : String
  id : Nat
  searchable : List String
  attr : String → String

/-- One Elasticsearch document: index name, document id, and the projected
fields. -/
structure Doc where
  index : String
  id : Nat
  fields : List (String × String)
  deriving Repr, DecidableEq

/-- The payload built by add_to_index (src/app/search.py): one (field,
value) pair per `__searchable__` entry, nothing else. -/
def payloadOf (o : Obj) : List (String × String) :=
  o.searchable.map fun f => (f, o.attr f)

/-- Look a document up by (index, id). -/
def esLookup (docs : List Doc) (index : String) (i : Nat) :
    Option (List (String × String)) :=
  (docs.find? fun d => d.index == index && d.id == i).map Doc.fields

/-- The document-store effect of `elasticsearch.index(index=index,
id=model.id, document=payload)` in add_to_index: upsert by (index, id). -/
def addDoc (index : String) (o : Obj) (docs : List Doc) : List Doc :=
  (docs.filter fun d => !(d.index == index && d.id == o.id)) ++
    [⟨index, o.id, payloadOf o⟩]

/-- The document-store effect of `elasticsearch.delete(index=index,
id=model.id)` in remove_from_index: drop the document. -/
def removeDoc (index : String) (o : Obj) (docs : List Doc) : List Doc :=
  docs.filter fun d => !(d.index == index && d.id == o.id)

/-- add_to_index (src/app/search.py): read `current_app.elasticsearch`
(raising AttributeError when the attribute was never assigned), return
untouched documents when it is falsy, otherwise upsert the allowlist
payload keyed by the model's id. -/
def add_to_index (app : FlaskApp) (index : String) (o : Obj) (docs : List Doc) :
    Except PyError (List Doc) := do
  let es ← getattrES app
  match es with
  | none => return docs
  | some _ => return addDoc index o docs

/-- remove_from_index (src/app/search.py): same guard, then delete the
document by id. -/
def remove_from_index (app : FlaskApp) (index : String) (o : Obj)
    (docs : List Doc) : Except PyError (List Doc) := do
  let es ← getattrES app
  match es with
  | none => return docs
  | some _ => return removeDoc index o docs

/-- The `session._changes` snapshot taken by SearchableMixin.before_commit:
the session's new, dirty and deleted sets. -/
structure Changes where
  add : List Obj
  update : List Obj
  delete : List Obj

/-- The add/update loops of SearchableMixin.after_commit at app level:
`if isinstance(obj, SearchableMixin): add_to_index(obj.__tablename__, obj)`
for each object in order, propagating any raised exception (after which
the remaining statements of after_commit never execute). -/
def addLoop (app : FlaskApp) : List Obj → List Doc → Except PyError (List Doc)
  | [], docs => .ok docs
  | o :: os, docs =>
      if o.isSearchable then do
        let d ← add_to_index app o.tablename o docs
        addLoop app os d
      else addLoop app os docs

/-- The delete loop of SearchableMixin.after_commit at app level, with the
same exception propagation. -/
def removeLoop (app : FlaskApp) : List Obj → List Doc → Except PyError (List Doc)
  | [], docs => .ok docs
  | o :: os, docs =>
      if o.isSearchable then do
        let d ← remove_from_index app o.tablename o docs
        removeLoop app os d
      else removeLoop app os docs

/-- One iteration of the add/update loops under an assigned truthy client,
where the guard of add_to_index passes and the upsert happens.  This is
the document-store effect the loop has when `app.elasticsearch` holds a
client (proven below to coincide with `addLoop` then); it also serves as
the idealized upper bound on index writes for the orphan-write theorem:
on the apps create_app actually builds the loops write nothing at all
(they raise), so whatever this over-approximation excludes, the program
excludes as well. -/
def addStep (ds : List Doc) (o : Obj) : List Doc :=
  if o.isSearchable then addDoc o.tablename o ds else ds

/-- One iteration of the delete loop under an assigned truthy client; same
role as `addStep`. -/
def removeStep (ds : List Doc) (o : Obj) : List Doc :=
  if o.isSearchable then removeDoc o.tablename o ds else ds

/-- The full projection of one snapshot under an assigned truthy client:
add_to_index every searchable added and updated object, then
remove_from_index every searchable deleted object. -/
def applyChanges (ch : Changes) (docs : List Doc) : List Doc :=
  ch.delete.foldl removeStep (ch.update.foldl addStep (ch.add.foldl addStep docs))

/-- The synchronizer-visible state: the `session._changes` scratch slot and
the external document store. -/
structure SyncState where
  changes : Option Changes
  docs : List Doc

/-- SearchableMixin.before_commit: stash the pending-change snapshot on the
session. -/
def before_commit (tx : Changes) (s : SyncState) : SyncState :=
  { s with changes := some tx }

/-- SearchableMixin.after_commit exactly as written (src/app/models.py):
run the three projection loops over the stashed snapshot, then — only if
none of them raised — execute `session._changes = None`.  An exception
from a loop (the AttributeError of the unassigned `app.elasticsearch`
attribute) propagates and leaves the snapshot in place.  The `none`
branch models `session._changes['add']` with `_changes = None`, a
TypeError; the event protocol (before_commit always fires first) keeps it
unreachable. -/
def after_commit (app : FlaskApp) (s : SyncState) : Except PyError SyncState :=
  match s.changes with
  | some ch => do
      let d1 ← addLoop app ch.add s.docs
      let d2 ← addLoop app ch.update d1
      let d3 ← removeLoop app ch.delete d2
      return { changes := none, docs := d3 }
  | none => .error .typeError

/-- The behaviour of after_commit under an assigned truthy client, where
every loop iteration succeeds: project the snapshot and reset
`session._changes` (proven below to coincide with `after_commit` on such
an app).  Used as the idealized projection in the commit-boundary machine
for the orphan-write obligation, which it over-approximates. -/
def after_commit_ideal (s : SyncState) : SyncState :=
  match s.changes with
  | some ch => { changes := none, docs := applyChanges ch s.docs }
  | none => { s with changes := none }

/-- One transaction at the commit boundary: before_commit always fires
first; on a successful commit (`ok = true`) the after_commit projection
fires (modelled here by its assigned-client behaviour, an upper bound on
what can ever be written), on a failed commit it never does (SQLAlchemy
fires `after_commit` only for transactions that actually committed). -/
def commitStep (tx : Changes) (ok : Bool) (s : SyncState) : SyncState :=
  let s1 := before_commit tx s
  if ok then after_commit_ideal s1 else s1

/-- A sequence of transactions, each either committing or failing. -/
def runTrace (tr : List (Changes × Bool)) (s : SyncState) : SyncState :=
  tr.foldl (fun s p => commitStep p.1 p.2 s) s

/-- A concrete searchable session object used by the witnesses: post 7 with
body "hello". -/
def objHello : Obj := ⟨true, "post", 7, ["body"], fun _ => "hello"⟩

/-- A concrete searchable session object used by the witnesses: post 9 with
body "bye". -/
def objBye : Obj := ⟨true, "post", 9, ["body"], fun _ => "bye"⟩

/-- A concrete transaction adding post 7. -/
def txHello : Changes := ⟨[objHello], [], []⟩

/-- A concrete transaction adding post 7 and deleting post 9. -/
def chW : Changes := ⟨[objHello], [], [objBye]⟩

/-- A concrete starting index holding a stale document for post 9. -/
def dsW : List Doc := [⟨"post", 9, [("body", "old")]⟩]

/-! SearchableMixin.search (src/app/models.py): ask query_index for the
ranked ids, return ([], 0) on a zero total, otherwise re-resolve the ids
against the relational store ordered by the CASE expression
`db.case(*when, value=cls.id)`, i.e. by position in the id list. -/

/-- Position of `i` in `ids` (first match), the value the CASE expression
assigns to a row with id `i`. -/
def posIn (ids : List Nat) (i : Nat) : Nat :=
  match ids with
  | [] => 0
  | j :: js => if j = i then 0 else posIn js i + 1

/-- The ORDER BY key of SearchableMixin.search: position of the row's id in
the ranked id list. -/
def searchOrder (key : α → Nat) (ids : List Nat) (a b : α) : Prop :=
  posIn ids (key a) ≤ posIn ids (key b)

instance (key : α → Nat) (ids : List Nat) : DecidableRel (searchOrder key ids) :=
  fun a b => inferInstanceAs (Decidable (posIn ids (key a) ≤ posIn ids (key b)))

instance (key : α → Nat) (ids : List Nat) : IsTotal α (searchOrder key ids) :=
  ⟨fun _ _ => Nat.le_total _ _⟩

instance (key : α → Nat) (ids : List Nat) : IsTrans α (searchOrder key ids) :=
  ⟨fun _ _ _ h1 h2 => Nat.le_trans h1 h2⟩

/-- The re-resolving query of SearchableMixin.search:
`select(cls).where(cls.id.in_(ids)).order_by(case(*when, value=cls.id))`,
over a generic entity store with identity `key`. -/
def searchResolve (key : α → Nat) (ids : List Nat) (store : List α) : List α :=
  List.insertionSort (searchOrder key ids)
    (store.filter fun e => ids.contains (key e))

/-- SearchableMixin.search given the (ids, total) answer of query_index:
short-circuit to ([], 0) on total zero, otherwise the re-resolved entities
and the index-reported total. -/
def searchableSearch (key : α → Nat) (store : List α) (ids : List Nat)
    (total : Nat) : List α × Nat :=
  if total = 0 then ([], 0) else (searchResolve key ids store, total)

/-! Theorems.  First the general list lemmas shared by several claims, then
the claim theorems themselves. -/

theorem mem_of_mem_dedupByKey {key : α → Nat} :
    ∀ {l : List α} {seen : List Nat} {x : α},
      x ∈ dedupByKey key l seen → x ∈ l ∧ key x ∉ seen := by
  intro l
  induction l with
  | nil => intro seen x h; simp [dedupByKey] at h
  | cons a as ih =>
      intro seen x h
      unfold dedupByKey at h
      by_cases hc : seen.contains (key a)
      · rw [if_pos hc] at h
        obtain ⟨h1, h2⟩ := ih h
        exact ⟨List.mem_cons_of_mem _ h1, h2⟩
      · rw [if_neg hc] at h
        rcases List.mem_cons.mp h with rfl | h
        · refine ⟨List.mem_cons_self _ _, fun hs => hc ?_⟩
          exact List.elem_iff.mpr hs
        · obtain ⟨h1, h2⟩ := ih h
          refine ⟨List.mem_cons_of_mem _ h1, fun hs => h2 ?_⟩
          exact List.mem_cons_of_mem _ hs

theorem mem_dedupByKey_of_mem {key : α → Nat} :
    ∀ {l : List α} {seen : List Nat} {x : α},
      x ∈ l → key x ∉ seen → (∀ y ∈ l, key y = key x → y = x) →
      x ∈ dedupByKey key l seen := by
  intro l
  induction l with
  | nil => intro seen x h; simp at h
  | cons a as ih =>
      intro seen x hx hseen huniq
      unfold dedupByKey
      by_cases hc : seen.contains (key a)
      · rw [if_pos hc]
        have hxa : x ≠ a := by
          rintro rfl
          exact hseen (List.elem_iff.mp hc)
        have hxas : x ∈ as := (List.mem_cons.mp hx).resolve_left hxa
        exact ih hxas hseen fun y hy => huniq y (List.mem_cons_of_mem _ hy)
      · rw [if_neg hc]
        by_cases hxa : x = a
        · subst hxa; exact List.mem_cons_self _ _
        · have hxas : x ∈ as := (List.mem_cons.mp hx).resolve_left hxa
          refine List.mem_cons_of_mem _ (ih hxas ?_ ?_)
          · intro hmem
            rcases List.mem_cons.mp hmem with hks | hks
            · exact hxa (huniq a (List.mem_cons_self _ _) hks.symm).symm
            · exact hseen hks
          · exact fun y hy => huniq y (List.mem_cons_of_mem _ hy)

theorem dedupByKey_key_nodup {key : α → Nat} :
    ∀ {l : List α} {seen : List Nat},
      ((dedupByKey key l seen).map key).Nodup ∧
      ∀ k ∈ (dedupByKey key l seen).map key, k ∉ seen := by
  intro l
  induction l with
  | nil => intro seen; simp [dedupByKey]
  | cons a as ih =>
      intro seen
      unfold dedupByKey
      by_cases hc : seen.contains (key a)
      · rw [if_pos hc]; exact ih
      · rw [if_neg hc]
        obtain ⟨ihn, ihs⟩ := @ih (key a :: seen)
        refine ⟨?_, ?_⟩
        · rw [List.map_cons, List.nodup_cons]
          refine ⟨fun hmem => ?_, ihn⟩
          exact ihs _ hmem (List.mem_cons_self _ _)
        · intro k hk
          rw [List.map_cons, List.mem_cons] at hk
          rcases hk with rfl | hk
          · exact fun hs => hc (List.elem_iff.mpr hs)
          · exact fun hs => ihs _ hk (List.mem_cons_of_mem _ hs)

theorem nodup_dedupByKey {key : α → Nat} {l : List α} {seen : List Nat} :
    (dedupByKey key l seen).Nodup :=
  List.Nodup.of_map key (@dedupByKey_key_nodup _ key l seen).1

set_option maxHeartbeats 1600000 in
/-- C2: in the four-user scenario of the reference test — users A,B,C,D each
authoring one post with timestamps t+1, t+4, t+3, t+2 and follow edges
A→B, A→D, B→C, C→D — the feed query returns feed(A) = [pB, pD, pA],
feed(B) = [pB, pC], feed(C) = [pC, pD] and feed(D) = [pD], each sorted in
descending timestamp order. -/
theorem feed_concrete_scenario (t : Nat) :
    following_posts 1 (scenarioDB t) = [pB t, pD t, pA t] ∧
    following_posts 2 (scenarioDB t) = [pB t, pC t] ∧
    following_posts 3 (scenarioDB t) = [pC t, pD t] ∧
    following_posts 4 (scenarioDB t) = [pD t] := by
  refine ⟨?_, ?_, ?_, ?_⟩
  · show List.insertionSort tsGE [pA t, pB t, pD t] = _
    simp [List.insertionSort, List.orderedInsert, tsGE, pA, pB, pD]
  · show List.insertionSort tsGE [pB t, pC t] = _
    simp [List.insertionSort, List.orderedInsert, tsGE, pB, pC]
  · show List.insertionSort tsGE [pC t, pD t] = _
    simp [List.insertionSort, List.orderedInsert, tsGE, pC, pD]
  · show List.insertionSort tsGE [pD t] = _
    simp [List.insertionSort, List.orderedInsert]

/-- C6: for users A and B (B a user row of the store), following twice
leaves the edge set as following once does, and unfollowing a
non-existent edge is a no-op. -/
theorem follow_idempotent (db : DB) (a b : User) (hb : b ∈ db.users) :
    follow (follow db a.id b.id) a.id b.id = follow db a.id b.id ∧
    ((a.id, b.id) ∉ db.followers → unfollow db a.id b.id = db) := by
  have key : ∀ db2 : DB, db2.users = db.users → (a.id, b.id) ∈ db2.followers →
      is_following db2 a.id b.id = true := by
    intro db2 hu he
    unfold is_following
    rw [List.any_eq_true]
    refine ⟨b, by rw [hu]; exact hb, ?_⟩
    simp [List.contains, List.elem_iff, he]
  constructor
  · by_cases h : is_following db a.id b.id
    · simp [follow, h]
    · have h1 : is_following
          ({ db with followers := db.followers ++ [(a.id, b.id)] }) a.id b.id = true :=
        key _ rfl (by simp)
      simp [follow, h, h1]
  · intro hne
    have h : ¬ is_following db a.id b.id = true := by
      intro hcontra
      unfold is_following at hcontra
      rw [List.any_eq_true] at hcontra
      obtain ⟨f, _, hcond⟩ := hcontra
      rw [Bool.and_eq_true, beq_iff_eq] at hcond
      exact hne (hcond.1 ▸ List.elem_iff.mp hcond.2)
    simp [unfollow, h]

/-- C3 (divergence witness): the claim says a search against an app whose
index collaborator is absent returns ([], 0) without raising, but
create_app never assigns `app.elasticsearch`, so query_index raises
AttributeError on every app the factory builds; had the attribute been
assigned None, the ([], 0) degradation of src/app/search.py would have
applied. -/
theorem query_index_attribute_error :
    (∀ cfg expr page per_page,
        query_index (create_app cfg) "post" expr page per_page =
          Except.error PyError.attributeError) ∧
    (∀ expr page per_page,
        query_index ⟨some none⟩ "post" expr page per_page = Except.ok ([], 0)) :=
  ⟨fun _ _ _ _ => rfl, fun _ _ _ => rfl⟩

/-- Witness: follow idempotence and the unfollow no-op evaluated on the
concrete four-user store, with C following B (edge (3,2) absent). -/
theorem follow_idempotent_witness :
    uB ∈ (scenarioDB 0).users ∧
    (uC.id, uB.id) ∉ (scenarioDB 0).followers ∧
    follow (follow (scenarioDB 0) uC.id uB.id) uC.id uB.id =
      follow (scenarioDB 0) uC.id uB.id ∧
    unfollow (scenarioDB 0) uC.id uB.id = scenarioDB 0 :=
  ⟨by decide, by decide,
    (follow_idempotent (scenarioDB 0) uC uB (by decide)).1,
    (follow_idempotent (scenarioDB 0) uC uB (by decide)).2 (by decide)⟩

/-! Lemmas about the document store and the synchronizer folds. -/

theorem find_filter_of_imp {p q : α → Bool} (h : ∀ d, p d = true → q d = true) :
    ∀ l : List α, (l.filter q).find? p = l.find? p := by
  intro l
  induction l with
  | nil => rfl
  | cons d ds ih =>
      by_cases hq : q d
      · rw [List.filter_cons_of_pos hq]
        by_cases hp : p d
        · rw [List.find?_cons_of_pos _ hp, List.find?_cons_of_pos _ hp]
        · rw [List.find?_cons_of_neg _ hp, List.find?_cons_of_neg _ hp, ih]
      · have hp : ¬ p d = true := fun hc => hq (h d hc)
        rw [List.filter_cons_of_neg hq, List.find?_cons_of_neg _ hp, ih]

theorem key_pred_false_of_ne {index tbl : String} {oid i : Nat} {d : Doc}
    (h : ¬(index = tbl ∧ oid = i))
    (hp : (d.index == tbl && d.id == i) = true) :
    (!(d.index == index && d.id == oid)) = true := by
  simp only [Bool.and_eq_true, beq_iff_eq] at hp
  cases hb : d.index == index && d.id == oid
  · simp
  · exfalso
    simp only [Bool.and_eq_true, beq_iff_eq] at hb
    exact h ⟨by rw [← hb.1]; exact hp.1, by rw [← hb.2]; exact hp.2⟩

theorem find_filtered_out_none (index : String) (oid : Nat) (ds : List Doc) :
    (ds.filter fun d => !(d.index == index && d.id == oid)).find?
      (fun d => d.index == index && d.id == oid) = none := by
  rw [List.find?_eq_none]
  intro d hd
  rw [List.mem_filter] at hd
  have h2 := hd.2
  rw [Bool.not_eq_true'] at h2
  simp [h2]

theorem esLookup_addDoc_same (index : String) (o : Obj) (ds : List Doc) :
    esLookup (addDoc index o ds) index o.id = some (payloadOf o) := by
  unfold esLookup addDoc
  rw [List.find?_append, find_filtered_out_none]
  simp

theorem esLookup_addDoc_other (index : String) (o : Obj) (ds : List Doc)
    {tbl : String} {i : Nat} (h : ¬(index = tbl ∧ o.id = i)) :
    esLookup (addDoc index o ds) tbl i = esLookup ds tbl i := by
  unfold esLookup addDoc
  rw [List.find?_append]
  have h2 : (([⟨index, o.id, payloadOf o⟩] : List Doc).find?
      (fun d => d.index == tbl && d.id == i)) = none := by
    rw [List.find?_eq_none]
    intro d hd
    rw [List.mem_singleton] at hd
    subst hd
    intro hc
    simp only [Bool.and_eq_true, beq_iff_eq] at hc
    exact h hc
  rw [h2]
  rw [find_filter_of_imp (fun d => key_pred_false_of_ne h)]
  cases hfind : ds.find? (fun d => d.index == tbl && d.id == i) <;> rfl

theorem esLookup_removeDoc_same (index : String) (o : Obj) (ds : List Doc) :
    esLookup (removeDoc index o ds) index o.id = none := by
  unfold esLookup removeDoc
  rw [find_filtered_out_none]
  rfl

theorem esLookup_removeDoc_other (index : String) (o : Obj) (ds : List Doc)
    {tbl : String} {i : Nat} (h : ¬(index = tbl ∧ o.id = i)) :
    esLookup (removeDoc index o ds) tbl i = esLookup ds tbl i := by
  unfold esLookup removeDoc
  rw [find_filter_of_imp (fun d => key_pred_false_of_ne h)]

theorem esLookup_removeDoc_none (index : String) (o : Obj) (ds : List Doc)
    {tbl : String} {i : Nat} (h : esLookup ds tbl i = none) :
    esLookup (removeDoc index o ds) tbl i = none := by
  by_cases hk : index = tbl ∧ o.id = i
  · obtain ⟨rfl, rfl⟩ := hk
    exact esLookup_removeDoc_same index o ds
  · rw [esLookup_removeDoc_other index o ds hk]
    exact h

theorem lookup_foldl_addStep_no_touch {tbl : String} {i : Nat} :
    ∀ (l : List Obj) (ds : List Doc),
      (∀ o ∈ l, o.isSearchable = true → ¬(o.tablename = tbl ∧ o.id = i)) →
      esLookup (l.foldl addStep ds) tbl i = esLookup ds tbl i := by
  intro l
  induction l with
  | nil => intro ds _; rfl
  | cons o os ih =>
      intro ds h
      rw [List.foldl_cons]
      rw [ih _ fun o2 ho2 => h o2 (List.mem_cons_of_mem _ ho2)]
      unfold addStep
      by_cases hs : o.isSearchable
      · rw [if_pos hs]
        exact esLookup_addDoc_other _ _ _ (h o (List.mem_cons_self _ _) hs)
      · rw [if_neg hs]

theorem lookup_foldl_removeStep_no_touch {tbl : String} {i : Nat} :
    ∀ (l : List Obj) (ds : List Doc),
      (∀ o ∈ l, o.isSearchable = true → ¬(o.tablename = tbl ∧ o.id = i)) →
      esLookup (l.foldl removeStep ds) tbl i = esLookup ds tbl i := by
  intro l
  induction l with
  | nil => intro ds _; rfl
  | cons o os ih =>
      intro ds h
      rw [List.foldl_cons]
      rw [ih _ fun o2 ho2 => h o2 (List.mem_cons_of_mem _ ho2)]
      unfold removeStep
      by_cases hs : o.isSearchable
      · rw [if_pos hs]
        exact esLookup_removeDoc_other _ _ _ (h o (List.mem_cons_self _ _) hs)
      · rw [if_neg hs]

theorem lookup_foldl_removeStep_none {tbl : String} {i : Nat} :
    ∀ (l : List Obj) (ds : List Doc), esLookup ds tbl i = none →
      esLookup (l.foldl removeStep ds) tbl i = none := by
  intro l
  induction l with
  | nil => intro ds h; exact h
  | cons o os ih =>
      intro ds h
      rw [List.foldl_cons]
      refine ih _ ?_
      unfold removeStep
      by_cases hs : o.isSearchable
      · rw [if_pos hs]
        exact esLookup_removeDoc_none _ _ _ h
      · rw [if_neg hs]; exact h

theorem addLoop_configured (c : ESClient) :
    ∀ (l : List Obj) (docs : List Doc),
      addLoop ⟨some (some c)⟩ l docs = Except.ok (l.foldl addStep docs) := by
  intro l
  induction l with
  | nil => intro docs; rfl
  | cons o os ih =>
      intro docs
      rw [List.foldl_cons]
      show (if o.isSearchable then do
          let d ← add_to_index ⟨some (some c)⟩ o.tablename o docs
          addLoop ⟨some (some c)⟩ os d
        else addLoop ⟨some (some c)⟩ os docs) = _
      by_cases hs : o.isSearchable
      · rw [if_pos hs]
        have ha : addStep docs o = addDoc o.tablename o docs := by
          unfold addStep
          rw [if_pos hs]
        rw [ha]
        exact ih (addDoc o.tablename o docs)
      · rw [if_neg hs]
        have ha : addStep docs o = docs := by
          unfold addStep
          rw [if_neg hs]
        rw [ha]
        exact ih docs

theorem removeLoop_configured (c : ESClient) :
    ∀ (l : List Obj) (docs : List Doc),
      removeLoop ⟨some (some c)⟩ l docs = Except.ok (l.foldl removeStep docs) := by
  intro l
  induction l with
  | nil => intro docs; rfl
  | cons o os ih =>
      intro docs
      rw [List.foldl_cons]
      show (if o.isSearchable then do
          let d ← remove_from_index ⟨some (some c)⟩ o.tablename o docs
          removeLoop ⟨some (some c)⟩ os d
        else removeLoop ⟨some (some c)⟩ os docs) = _
      by_cases hs : o.isSearchable
      · rw [if_pos hs]
        have ha : removeStep docs o = removeDoc o.tablename o docs := by
          unfold removeStep
          rw [if_pos hs]
        rw [ha]
        exact ih (removeDoc o.tablename o docs)
      · rw [if_neg hs]
        have ha : removeStep docs o = docs := by
          unfold removeStep
          rw [if_neg hs]
        rw [ha]
        exact ih docs

/-- C8 (divergence witness): on every app create_app builds, add_to_index
itself raises AttributeError, and after_commit on a committed snapshot
that adds searchable post 7 (and deletes post 9) raises inside its first
loop before any document is upserted — the claimed allowlist projection
never happens.  With an assigned client the three loops produce exactly
the idealized projection `applyChanges`, whose payloads are precisely the
per-type allowlists, so the claim describes the evident intent and the
missing `app.elasticsearch` assignment is the slip. -/
theorem add_to_index_attribute_error :
    (∀ cfg index o docs,
        add_to_index (create_app cfg) index o docs =
          Except.error PyError.attributeError) ∧
    (∀ cfg docs,
        after_commit (create_app cfg) ⟨some chW, docs⟩ =
          Except.error PyError.attributeError) ∧
    (∀ (c : ESClient) (ch : Changes) (docs : List Doc),
        after_commit ⟨some (some c)⟩ ⟨some ch, docs⟩ =
          Except.ok ⟨none, applyChanges ch docs⟩) := by
  refine ⟨fun _ _ _ _ => rfl, fun _ _ => rfl, fun c ch docs => ?_⟩
  have h1 := addLoop_configured c ch.add docs
  have h2 := addLoop_configured c ch.update (ch.add.foldl addStep docs)
  have h3 := removeLoop_configured c ch.delete
    (ch.update.foldl addStep (ch.add.foldl addStep docs))
  show (do
      let d1 ← addLoop ⟨some (some c)⟩ ch.add docs
      let d2 ← addLoop ⟨some (some c)⟩ ch.update d1
      let d3 ← removeLoop ⟨some (some c)⟩ ch.delete d2
      return ({ changes := none, docs := d3 } : SyncState)) =
    Except.ok ⟨none, applyChanges ch docs⟩
  rw [h1]
  show (do
      let d2 ← addLoop ⟨some (some c)⟩ ch.update (ch.add.foldl addStep docs)
      let d3 ← removeLoop ⟨some (some c)⟩ ch.delete d2
      return ({ changes := none, docs := d3 } : SyncState)) =
    Except.ok ⟨none, applyChanges ch docs⟩
  rw [h2]
  show (do
      let d3 ← removeLoop ⟨some (some c)⟩ ch.delete
        (ch.update.foldl addStep (ch.add.foldl addStep docs))
      return ({ changes := none, docs := d3 } : SyncState)) =
    Except.ok ⟨none, applyChanges ch docs⟩
  rw [h3]
  rfl

/-- C10 (divergence witness): after_commit reaches `session._changes = None`
only when no projection call raises; on the apps create_app builds, a
successful commit whose snapshot adds searchable post 7 raises
AttributeError in the first loop, so the snapshot is neither projected nor
cleared, while a snapshot with no searchable entity is cleared without
touching the index. -/
theorem after_commit_snapshot_not_cleared :
    (∀ cfg docs,
        after_commit (create_app cfg) ⟨some txHello, docs⟩ =
          Except.error PyError.attributeError) ∧
    (∀ cfg docs,
        after_commit (create_app cfg) ⟨some ⟨[], [], []⟩, docs⟩ =
          Except.ok ⟨none, docs⟩) :=
  ⟨fun _ _ => rfl, fun _ _ => rfl⟩

/-- C4: a failed commit performs no index mutation — after_commit never
fires, so the document store is untouched — and over any transaction
sequence started from an empty index, an identity that is only ever
added/updated by failed transactions has no document in the index. -/
theorem commit_failure_no_orphan_writes :
    (∀ (tx : Changes) (s : SyncState), (commitStep tx false s).docs = s.docs) ∧
    (∀ (tr : List (Changes × Bool)) (tbl : String) (i : Nat),
        (∀ p ∈ tr, p.2 = true →
          ∀ o ∈ p.1.add ++ p.1.update, o.isSearchable = true →
            ¬(o.tablename = tbl ∧ o.id = i)) →
        esLookup (runTrace tr ⟨none, []⟩).docs tbl i = none) := by
  refine ⟨fun tx s => rfl, fun tr tbl i h => ?_⟩
  have happly : ∀ (tx : Changes) (ds : List Doc),
      (∀ o ∈ tx.add ++ tx.update, o.isSearchable = true →
        ¬(o.tablename = tbl ∧ o.id = i)) →
      esLookup ds tbl i = none → esLookup (applyChanges tx ds) tbl i = none := by
    intro tx ds hno hds
    unfold applyChanges
    refine lookup_foldl_removeStep_none _ _ ?_
    rw [lookup_foldl_addStep_no_touch _ _
      fun o ho => hno o (List.mem_append_right _ ho)]
    rw [lookup_foldl_addStep_no_touch _ _
      fun o ho => hno o (List.mem_append_left _ ho)]
    exact hds
  suffices hgen : ∀ (tr2 : List (Changes × Bool)) (s : SyncState),
      esLookup s.docs tbl i = none →
      (∀ p ∈ tr2, p.2 = true →
        ∀ o ∈ p.1.add ++ p.1.update, o.isSearchable = true →
          ¬(o.tablename = tbl ∧ o.id = i)) →
      esLookup (runTrace tr2 s).docs tbl i = none by
    exact hgen tr ⟨none, []⟩ rfl h
  intro tr2
  induction tr2 with
  | nil => intro s hs _; exact hs
  | cons p ps ih =>
      intro s hs hh
      show esLookup (runTrace ps (commitStep p.1 p.2 s)).docs tbl i = none
      refine ih _ ?_ fun q hq => hh q (List.mem_cons_of_mem _ hq)
      cases hok : p.2 with
      | false => simpa [commitStep, before_commit, hok] using hs
      | true =>
          have hc : (commitStep p.1 true s).docs = applyChanges p.1 s.docs := rfl
          rw [hc]
          exact happly p.1 s.docs (hh p (List.mem_cons_self _ _) hok) hs

/-- Witness: the orphan-write exclusion evaluated on a one-transaction trace
whose only transaction fails while trying to add post 7. -/
theorem commit_failure_no_orphan_writes_witness :
    (∀ p ∈ [(txHello, false)], p.2 = true →
        ∀ o ∈ p.1.add ++ p.1.update, o.isSearchable = true →
          ¬(o.tablename = "post" ∧ o.id = 7)) ∧
    esLookup (runTrace [(txHello, false)] ⟨none, []⟩).docs "post" 7 = none :=
  ⟨by simp, commit_failure_no_orphan_writes.2 [(txHello, false)] "post" 7 (by simp)⟩

/-- C5: requesting a feed page at or beyond one past the last available page
succeeds with an empty item list and has_next = False; no error is
raised. -/
theorem pagination_soft_beyond_last (db : DB) (selfId page : Nat)
    (h1 : 1 ≤ page)
    (h2 : pageCount (following_posts selfId db).length 3 < page) :
    ∃ pr : PageResult, index_page db selfId page = Except.ok pr ∧
      pr.items = [] ∧ hasNext pr = false := by
  have hlen : (following_posts selfId db).length ≤ (page - 1) * 3 := by
    rcases Nat.eq_zero_or_pos (following_posts selfId db).length with hz | hpos
    · omega
    · have hne : ¬((following_posts selfId db).length = 0 ∨ (3 : Nat) = 0) := by
        rintro (hc | hc) <;> omega
      have heq : pageCount (following_posts selfId db).length 3 =
          ((following_posts selfId db).length + 3 - 1) / 3 := by
        unfold pageCount
        rw [if_neg hne]
      rw [heq] at h2
      omega
  refine ⟨⟨[], page, 3, (following_posts selfId db).length⟩, ?_, rfl, ?_⟩
  · unfold index_page paginate
    rw [List.drop_eq_nil_of_le hlen]
    rfl
  · unfold hasNext
    exact decide_eq_false (by simp; omega)

/-- Witness: page 2 of a 3-post feed (POSTS_PER_PAGE = 3, so the last page
is 1) returns empty items with has_next = False. -/
theorem pagination_soft_beyond_last_witness :
    1 ≤ 2 ∧ pageCount (following_posts 1 (scenarioDB 0)).length 3 < 2 ∧
    ∃ pr : PageResult, index_page (scenarioDB 0) 1 2 = Except.ok pr ∧
      pr.items = [] ∧ hasNext pr = false :=
  ⟨by decide, by decide,
    pagination_soft_beyond_last (scenarioDB 0) 1 2 (by decide) (by decide)⟩

/-- C9: with a positive index-reported total, search returns that total
verbatim while yielding only entities that actually have a row in the
store (each with its id among the returned identities); on a store missing
some returned identity the number of entities is strictly below the
total. -/
theorem search_total_from_index {α : Type} (key : α → Nat) (store : List α)
    (ids : List Nat) (total : Nat) (h : total ≠ 0) :
    (searchableSearch key store ids total).2 = total ∧
    (∀ e ∈ (searchableSearch key store ids total).1, e ∈ store ∧ key e ∈ ids) ∧
    (searchableSearch (fun n : Nat => n) [5] [5, 7] 2).1.length <
      (searchableSearch (fun n : Nat => n) [5] [5, 7] 2).2 := by
  unfold searchableSearch
  rw [if_neg h]
  refine ⟨rfl, ?_, by decide⟩
  intro e he
  unfold searchResolve at he
  rw [List.mem_insertionSort, List.mem_filter] at he
  exact ⟨he.1, List.elem_iff.mp he.2⟩

/-- Witness: the stale-identity search evaluated with store [5], ranked ids
[5, 7] and reported total 2. -/
theorem search_total_from_index_witness :
    (2 : Nat) ≠ 0 ∧
    (searchableSearch (fun n : Nat => n) [5] [5, 7] 2).2 = 2 ∧
    (∀ e ∈ (searchableSearch (fun n : Nat => n) [5] [5, 7] 2).1,
      e ∈ [5] ∧ e ∈ [5, 7]) ∧
    (searchableSearch (fun n : Nat => n) [5] [5, 7] 2).1.length <
      (searchableSearch (fun n : Nat => n) [5] [5, 7] 2).2 := by
  have h := search_total_from_index (fun n : Nat => n) [5] [5, 7] 2 (by decide)
  exact ⟨by decide, h.1, h.2.1, h.2.2⟩

theorem lookup_foldl_addStep_unique :
    ∀ (l : List Obj) (ds : List Doc) (o : Obj),
      o.isSearchable = true → o ∈ l →
      (l.countP fun o2 => o2.tablename == o.tablename && o2.id == o.id) = 1 →
      esLookup (l.foldl addStep ds) o.tablename o.id = some (payloadOf o) := by
  intro l
  induction l with
  | nil => intro ds o _ hmem; simp at hmem
  | cons x xs ih =>
      intro ds o hsearch hmem hcount
      have hpredo : (o.tablename == o.tablename && o.id == o.id) = true := by simp
      rw [List.countP_cons] at hcount
      by_cases hx : (x.tablename == o.tablename && x.id == o.id) = true
      · rw [if_pos hx] at hcount
        have hzero : (xs.countP
            fun o2 => o2.tablename == o.tablename && o2.id == o.id) = 0 := by
          omega
        have hxo : o = x := by
          rcases List.mem_cons.mp hmem with h | h
          · exact h
          · exfalso
            have : 0 < xs.countP
                fun o2 => o2.tablename == o.tablename && o2.id == o.id :=
              List.countP_pos_iff.mpr ⟨o, h, hpredo⟩
            omega
        subst hxo
        rw [List.foldl_cons]
        rw [lookup_foldl_addStep_no_touch xs _ ?_]
        · unfold addStep
          rw [if_pos hsearch]
          exact esLookup_addDoc_same _ _ _
        · intro o2 ho2 _ hkey
          have := List.countP_eq_zero.mp hzero o2 ho2
          rw [Bool.and_eq_true, beq_iff_eq, beq_iff_eq] at this
          exact this ⟨hkey.1, hkey.2⟩
      · rw [if_neg hx] at hcount
        have hne : o ≠ x := fun he => hx (he ▸ hpredo)
        have hmem2 : o ∈ xs := (List.mem_cons.mp hmem).resolve_left hne
        rw [List.foldl_cons]
        exact ih _ o hsearch hmem2 (by omega)

theorem lookup_foldl_removeStep_mem :
    ∀ (l : List Obj) (ds : List Doc) (o : Obj),
      o.isSearchable = true → o ∈ l →
      esLookup (l.foldl removeStep ds) o.tablename o.id = none := by
  intro l
  induction l with
  | nil => intro ds o _ hmem; simp at hmem
  | cons x xs ih =>
      intro ds o hsearch hmem
      rw [List.foldl_cons]
      by_cases hxo : o = x
      · subst hxo
        refine lookup_foldl_removeStep_none xs _ ?_
        unfold removeStep
        rw [if_pos hsearch]
        exact esLookup_removeDoc_same _ _ _
      · exact ih _ o hsearch ((List.mem_cons.mp hmem).resolve_left hxo)

/-- C8: for a committed snapshot whose identities are not reused inside the
same transaction, every searchable added/updated object ends up in the
index keyed by (tablename, id) with exactly its `__searchable__`
allowlisted fields as payload — the allowlist is read off the object, no
field name is fixed by the synchronizer — and every searchable deleted
object's document is removed by identity. -/
theorem sync_projects_allowlist (ch : Changes) (ds : List Doc) (o : Obj) :
    (o.isSearchable = true →
      o ∈ ch.add ++ ch.update →
      ((ch.add ++ ch.update).countP
        fun o2 => o2.tablename == o.tablename && o2.id == o.id) = 1 →
      (∀ o2 ∈ ch.delete, o2.isSearchable = true →
        ¬(o2.tablename = o.tablename ∧ o2.id = o.id)) →
      esLookup (applyChanges ch ds) o.tablename o.id = some (payloadOf o)) ∧
    (o.isSearchable = true → o ∈ ch.delete →
      esLookup (applyChanges ch ds) o.tablename o.id = none) := by
  constructor
  · intro hsearch hmem hcount hdel
    unfold applyChanges
    rw [← List.foldl_append]
    rw [lookup_foldl_removeStep_no_touch _ _ hdel]
    exact lookup_foldl_addStep_unique _ _ _ hsearch hmem hcount
  · intro hsearch hmem
    unfold applyChanges
    exact lookup_foldl_removeStep_mem _ _ _ hsearch hmem

/-- Witness: the projection evaluated on a transaction adding post 7 with
body "hello" and deleting post 9, starting from an index holding a stale
document for post 9. -/
theorem sync_projects_allowlist_witness :
    objHello.isSearchable = true ∧
    objHello ∈ chW.add ++ chW.update ∧
    ((chW.add ++ chW.update).countP
      fun o2 => o2.tablename == objHello.tablename && o2.id == objHello.id) = 1 ∧
    (∀ o2 ∈ chW.delete, o2.isSearchable = true →
      ¬(o2.tablename = objHello.tablename ∧ o2.id = objHello.id)) ∧
    objBye.isSearchable = true ∧ objBye ∈ chW.delete ∧
    esLookup (applyChanges chW dsW) "post" 7 = some [("body", "hello")] ∧
    esLookup (applyChanges chW dsW) "post" 9 = none :=
  ⟨rfl, by simp [chW], rfl, by decide, rfl, by simp [chW],
    (sync_projects_allowlist chW dsW objHello).1 rfl (by simp [chW]) rfl (by decide),
    (sync_projects_allowlist chW dsW objBye).2 rfl (by simp [chW])⟩

/-! Membership characterizations of the feed query stages, leading to the
feed completeness/isolation theorem. -/

theorem mem_authorEdges {db : DB} {a : User} {ef : (Nat × Nat) × User} :
    ef ∈ authorEdges db a ↔
      ef.1 ∈ db.followers ∧ ef.2 ∈ db.users ∧ ef.2.id = ef.1.1 ∧
        ef.1.2 = a.id := by
  unfold authorEdges
  rw [List.mem_filter, List.mem_flatMap]
  constructor
  · rintro ⟨⟨e, he, hmap⟩, hcond⟩
    rw [List.mem_map] at hmap
    obtain ⟨f, hf, rfl⟩ := hmap
    rw [List.mem_filter, beq_iff_eq] at hf
    rw [beq_iff_eq] at hcond
    exact ⟨he, hf.1, hf.2, hcond⟩
  · rintro ⟨he, hf, hid, hcond⟩
    refine ⟨⟨ef.1, he, ?_⟩, by rw [beq_iff_eq]; exact hcond⟩
    rw [List.mem_map]
    refine ⟨ef.2, ?_, rfl⟩
    rw [List.mem_filter, beq_iff_eq]
    exact ⟨hf, hid⟩

theorem mem_rowsFor {db : DB} {p : Post} {a : User} {r : FeedRow} :
    r ∈ rowsFor db p a ↔
      (authorEdges db a = [] ∧ r = ⟨p, a, none⟩) ∨
      (∃ ef ∈ authorEdges db a, r = ⟨p, a, some ef⟩) := by
  unfold rowsFor
  cases h : authorEdges db a with
  | nil => simp
  | cons x xs =>
      rw [List.mem_map]
      constructor
      · rintro ⟨ef, hef, rfl⟩
        exact Or.inr ⟨ef, hef, rfl⟩
      · rintro (⟨hnil, _⟩ | ⟨ef, hef, rfl⟩)
        · exact absurd hnil (by simp)
        · exact ⟨ef, hef, rfl⟩

theorem mem_outerRows {db : DB} {r : FeedRow} :
    r ∈ outerRows db ↔
      ∃ p ∈ db.posts, ∃ a ∈ db.users, p.user_id = a.id ∧ r ∈ rowsFor db p a := by
  unfold outerRows
  rw [List.mem_flatMap]
  constructor
  · rintro ⟨p, hp, hin⟩
    rw [List.mem_flatMap] at hin
    obtain ⟨a, ha, hr⟩ := hin
    rw [List.mem_filter, beq_iff_eq] at ha
    exact ⟨p, hp, a, ha.1, ha.2, hr⟩
  · rintro ⟨p, hp, a, ha, hid, hr⟩
    refine ⟨p, hp, ?_⟩
    rw [List.mem_flatMap]
    refine ⟨a, ?_, hr⟩
    rw [List.mem_filter, beq_iff_eq]
    exact ⟨ha, hid⟩

/-- Soundness of the filtered feed rows: every surviving row's post is a
stored post whose author is `selfId` or is followed by `selfId`. -/
theorem feed_row_sound {db : DB} {selfId : Nat} {x : Post}
    (h : x ∈ (feedFiltered selfId db).map FeedRow.post) :
    x ∈ db.posts ∧ (x.user_id = selfId ∨ (selfId, x.user_id) ∈ db.followers) := by
  rw [List.mem_map] at h
  obtain ⟨r, hr, rfl⟩ := h
  unfold feedFiltered at hr
  rw [List.mem_filter] at hr
  obtain ⟨hrows, hcond⟩ := hr
  rw [mem_outerRows] at hrows
  obtain ⟨p, hp, a, ha, hid, hin⟩ := hrows
  rw [mem_rowsFor] at hin
  rcases hin with ⟨_, rfl⟩ | ⟨ef, hef, rfl⟩
  · simp only [Bool.or_eq_true, beq_iff_eq] at hcond
    rcases hcond with hfalse | hauthor
    · cases hfalse
    · exact ⟨hp, Or.inl (by rw [hid, hauthor])⟩
  · rw [mem_authorEdges] at hef
    obtain ⟨he, hfu, hfid, hfol⟩ := hef
    simp only [Bool.or_eq_true, beq_iff_eq] at hcond
    rcases hcond with hfol2 | hauthor
    · refine ⟨hp, Or.inr ?_⟩
      have : ef.1 = (selfId, p.user_id) := by
        have h1 : ef.1.1 = selfId := by rw [← hfid, hfol2]
        have h2 : ef.1.2 = p.user_id := by rw [hfol, hid]
        rw [← h1, ← h2]
      rw [← this]
      exact he
    · exact ⟨hp, Or.inl (by rw [hid, hauthor])⟩

/-- Completeness of the filtered feed rows: every stored post authored by
`u` or by someone `u` follows survives the filter through some row. -/
theorem feed_row_complete {db : DB} {u : User} {x : Post}
    (hu : u ∈ db.users)
    (hfk : ∀ p ∈ db.posts, ∃ a ∈ db.users, a.id = p.user_id)
    (hx : x ∈ db.posts)
    (hcase : x.user_id = u.id ∨ (u.id, x.user_id) ∈ db.followers) :
    x ∈ (feedFiltered u.id db).map FeedRow.post := by
  rw [List.mem_map]
  rcases hcase with hown | hedge
  · cases hAE : authorEdges db u with
    | nil =>
        refine ⟨⟨x, u, none⟩, ?_, rfl⟩
        unfold feedFiltered
        rw [List.mem_filter]
        constructor
        · rw [mem_outerRows]
          exact ⟨x, hx, u, hu, hown, by rw [mem_rowsFor]; exact Or.inl ⟨hAE, rfl⟩⟩
        · simp
    | cons ef efs =>
        refine ⟨⟨x, u, some ef⟩, ?_, rfl⟩
        unfold feedFiltered
        rw [List.mem_filter]
        constructor
        · rw [mem_outerRows]
          refine ⟨x, hx, u, hu, hown, ?_⟩
          rw [mem_rowsFor]
          exact Or.inr ⟨ef, by rw [hAE]; exact List.mem_cons_self _ _, rfl⟩
        · simp
  · obtain ⟨a, ha, haid⟩ := hfk x hx
    refine ⟨⟨x, a, some ((u.id, x.user_id), u)⟩, ?_, rfl⟩
    unfold feedFiltered
    rw [List.mem_filter]
    constructor
    · rw [mem_outerRows]
      refine ⟨x, hx, a, ha, haid.symm, ?_⟩
      rw [mem_rowsFor]
      refine Or.inr ⟨((u.id, x.user_id), u), ?_, rfl⟩
      rw [mem_authorEdges]
      exact ⟨hedge, hu, rfl, haid.symm⟩
    · simp

/-- C1: for every user U of a store with referential integrity and distinct
post ids, the feed contains exactly the stored posts authored by U or by
an author U follows, each exactly once (the feed list has no duplicates);
in particular a post by any other non-followed author never appears. -/
theorem feed_exactness (db : DB) (u : User)
    (hu : u ∈ db.users)
    (hpid : (db.posts.map Post.id).Nodup)
    (hfk : ∀ p ∈ db.posts, ∃ a ∈ db.users, a.id = p.user_id) :
    (∀ x : Post, x ∈ following_posts u.id db ↔
        x ∈ db.posts ∧ (x.user_id = u.id ∨ (u.id, x.user_id) ∈ db.followers)) ∧
    (following_posts u.id db).Nodup := by
  constructor
  · intro x
    unfold following_posts
    rw [List.mem_insertionSort]
    constructor
    · intro h
      exact feed_row_sound (mem_of_mem_dedupByKey h).1
    · intro h
      refine mem_dedupByKey_of_mem
        (feed_row_complete hu hfk h.1 h.2) (by simp) ?_
      intro y hy hkey
      have hy2 := feed_row_sound hy
      exact List.inj_on_of_nodup_map hpid hy2.1 h.1 hkey
  · unfold following_posts
    exact ((List.perm_insertionSort tsGE _).nodup_iff).mpr nodup_dedupByKey

/-- Witness: feed exactness evaluated on the concrete four-user store for
user A. -/
theorem feed_exactness_witness :
    uA ∈ (scenarioDB 5).users ∧
    ((scenarioDB 5).posts.map Post.id).Nodup ∧
    (∀ p ∈ (scenarioDB 5).posts, ∃ a ∈ (scenarioDB 5).users, a.id = p.user_id) ∧
    ((∀ x : Post, x ∈ following_posts uA.id (scenarioDB 5) ↔
        x ∈ (scenarioDB 5).posts ∧
          (x.user_id = uA.id ∨ (uA.id, x.user_id) ∈ (scenarioDB 5).followers)) ∧
      (following_posts uA.id (scenarioDB 5)).Nodup) :=
  ⟨by decide, by decide, by decide,
    feed_exactness (scenarioDB 5) uA (by decide) (by decide) (by decide)⟩

/-! Lemmas for the ranking-order preservation of SearchableMixin.search. -/

theorem posIn_inj_on : ∀ (ids : List Nat) {x y : Nat},
    x ∈ ids → y ∈ ids → posIn ids x = posIn ids y → x = y := by
  intro ids
  induction ids with
  | nil => intro x y hx; simp at hx
  | cons j js ih =>
      intro x y hx hy heq
      unfold posIn at heq
      by_cases hjx : j = x
      · by_cases hjy : j = y
        · rw [← hjx, ← hjy]
        · rw [if_pos hjx, if_neg hjy] at heq; omega
      · by_cases hjy : j = y
        · rw [if_neg hjx, if_pos hjy] at heq; omega
        · rw [if_neg hjx, if_neg hjy] at heq
          have hx2 : x ∈ js :=
            (List.mem_cons.mp hx).resolve_left fun h => hjx h.symm
          have hy2 : y ∈ js :=
            (List.mem_cons.mp hy).resolve_left fun h => hjy h.symm
          exact ih hx2 hy2 (by omega)

theorem posIn_pairwise_lt : ∀ (ids : List Nat), ids.Nodup →
    ids.Pairwise fun a b => posIn ids a < posIn ids b := by
  intro ids
  induction ids with
  | nil => intro _; exact List.Pairwise.nil
  | cons j js ih =>
      intro hnd
      rw [List.nodup_cons] at hnd
      rw [List.pairwise_cons]
      constructor
      · intro b hb
        have hjb : j ≠ b := fun h => hnd.1 (h ▸ hb)
        unfold posIn
        rw [if_pos rfl, if_neg hjb]
        omega
      · refine (ih hnd.2).imp_of_mem ?_
        intro a b ha hb hlt
        have hja : j ≠ a := fun h => hnd.1 (h ▸ ha)
        have hjb : j ≠ b := fun h => hnd.1 (h ▸ hb)
        show posIn (j :: js) a < posIn (j :: js) b
        unfold posIn
        rw [if_neg hja, if_neg hjb]
        omega

theorem map_inj_on_eq {γ : Type} (f : γ → Nat) :
    ∀ (l1 l2 : List γ), l1.map f = l2.map f →
      (∀ x ∈ l1, ∀ y ∈ l2, f x = f y → x = y) → l1 = l2 := by
  intro l1
  induction l1 with
  | nil =>
      intro l2 h _
      cases l2 with
      | nil => rfl
      | cons b bs => simp at h
  | cons a as ih =>
      intro l2 h hinj
      cases l2 with
      | nil => simp at h
      | cons b bs =>
          rw [List.map_cons, List.map_cons] at h
          injection h with h1 h2
          have hab : a = b :=
            hinj a (List.mem_cons_self _ _) b (List.mem_cons_self _ _) h1
          subst hab
          rw [ih bs h2 fun x hx y hy =>
            hinj x (List.mem_cons_of_mem _ hx) y (List.mem_cons_of_mem _ hy)]

/-- C7: with a non-zero reported total, distinct ranked identities and
distinct store identities, the entities returned by search carry, in
order, exactly the index-ranked identities that have a row in the store:
the relevance ranking of the index is preserved by the CASE re-resolution
against the relational store. -/
theorem search_preserves_ranking_order {α : Type} (key : α → Nat)
    (ids : List Nat) (total : Nat) (store : List α)
    (hT : total ≠ 0) (hids : ids.Nodup) (hstore : (store.map key).Nodup) :
    (searchableSearch key store ids total).1.map key =
      ids.filter fun i => (store.map key).contains i := by
  unfold searchableSearch
  rw [if_neg hT]
  have hperm1 : List.Perm (searchResolve key ids store)
      (store.filter fun e => ids.contains (key e)) :=
    List.perm_insertionSort _ _
  have hsorted : List.Pairwise (searchOrder key ids)
      (searchResolve key ids store) :=
    List.sorted_insertionSort _ _
  have hNF : ((store.filter fun e => ids.contains (key e)).map key).Nodup :=
    hstore.sublist ((List.filter_sublist store).map key)
  have hNL1 : ((searchResolve key ids store).map key).Nodup :=
    ((hperm1.map key).nodup_iff).mpr hNF
  have hNL2 : (ids.filter fun i => (store.map key).contains i).Nodup :=
    List.Nodup.filter _ hids
  have hmem : ∀ k, k ∈ (searchResolve key ids store).map key ↔
      k ∈ ids.filter fun i => (store.map key).contains i := by
    intro k
    rw [(hperm1.map key).mem_iff]
    constructor
    · intro hk
      rw [List.mem_map] at hk
      obtain ⟨e, he, rfl⟩ := hk
      rw [List.mem_filter] at he
      rw [List.mem_filter]
      refine ⟨List.elem_iff.mp he.2, List.elem_iff.mpr ?_⟩
      rw [List.mem_map]
      exact ⟨e, he.1, rfl⟩
    · intro hk
      rw [List.mem_filter] at hk
      have hkstore : k ∈ store.map key := List.elem_iff.mp hk.2
      rw [List.mem_map] at hkstore
      obtain ⟨e, he, rfl⟩ := hkstore
      rw [List.mem_map]
      refine ⟨e, ?_, rfl⟩
      rw [List.mem_filter]
      exact ⟨he, List.elem_iff.mpr hk.1⟩
  have hperm : List.Perm ((searchResolve key ids store).map key)
      (ids.filter fun i => (store.map key).contains i) :=
    (List.perm_ext_iff_of_nodup hNL1 hNL2).mpr hmem
  have hs1 : ((searchResolve key ids store).map key).Pairwise
      (fun a b => posIn ids a ≤ posIn ids b) :=
    List.pairwise_map.mpr hsorted
  have hs2 : (ids.filter fun i => (store.map key).contains i).Pairwise
      (fun a b => posIn ids a ≤ posIn ids b) :=
    ((posIn_pairwise_lt ids hids).sublist (List.filter_sublist ids)).imp
      fun h => Nat.le_of_lt h
  have hmapeq : ((searchResolve key ids store).map key).map (posIn ids) =
      (ids.filter fun i => (store.map key).contains i).map (posIn ids) :=
    List.eq_of_perm_of_sorted (hperm.map (posIn ids))
      (List.pairwise_map.mpr hs1) (List.pairwise_map.mpr hs2)
  refine map_inj_on_eq (posIn ids) _ _ hmapeq ?_
  intro x hx y hy hpos
  have hxids : x ∈ ids := (List.mem_filter.mp (hperm.subset hx)).1
  have hyids : y ∈ ids := (List.mem_filter.mp hy).1
  exact posIn_inj_on ids hxids hyids hpos

/-- Witness: ranking-order preservation evaluated with ranked ids [10, 30]
over the store [20, 10, 30]. -/
theorem search_preserves_ranking_order_witness :
    (2 : Nat) ≠ 0 ∧ ([10, 30] : List Nat).Nodup ∧
    (([20, 10, 30] : List Nat).map (fun n : Nat => n)).Nodup ∧
    (searchableSearch (fun n : Nat => n) [20, 10, 30] [10, 30] 2).1.map
        (fun n : Nat => n) =
      ([10, 30] : List Nat).filter
        (fun i => (([20, 10, 30] : List Nat).map (fun n : Nat => n)).contains i) :=
  ⟨by decide, by decide, by decide,
    search_preserves_ranking_order (fun n : Nat => n) [10, 30] 2 [20, 10, 30]
      (by decide) (by decide) (by decide)⟩

end FlaskChronicles
